import Mathlib

set_option maxRecDepth 10000

/-!
Verification of the Controller Session Manager of the RyujinxLauncher
repository (src/RyujinxLauncher.py), shallowly embedded in Lean 4.

The embedding mirrors the Python source:
* the Assignment Table `self.assignments` is a `List Entry` of
  (hid_path, display_name) pairs in player order;
* the hardware map `self.hardware_map` is an association list
  `instance_id ↦ (hid_path, display_name)`;
* the color identity cache `self.hid_colors` together with
  `self.color_pool` is a `ColorState`;
* the methods `assign_player`, `remove_player`, the hot-plug
  reconciliation portion of `update_loop`, `get_assigned_color`,
  `refresh_grid` (its color side effects), `ryujinx_guid_fix`,
  the fresh-scan portion of `save_config`, `check_launch`,
  `force_launch` and the kill-combo scan are translated function by
  function below.
-/

namespace RyujinxLauncher

/-- Association-list lookup, modelling Python `dict` lookup / `.get`:
the key's bound value, if present. Dict keys are unique, so first-match
lookup agrees with Python semantics. -/
def lookupA {κ α : Type} [DecidableEq κ] : List (κ × α) → κ → Option α
  | [], _ => none
  | (k, v) :: rest, key => if k = key then some v else lookupA rest key

/-- Association-list key removal, modelling Python `dict.pop(key)`. -/
def eraseA {κ α : Type} [DecidableEq κ] : List (κ × α) → κ → List (κ × α)
  | [], _ => []
  | (k, v) :: rest, key => if k = key then rest else (k, v) :: eraseA rest key

/-- Association-list store, modelling Python `d[key] = v` (replace the
bound value if the key is present, append a new binding otherwise). -/
def setA {κ α : Type} [DecidableEq κ] : List (κ × α) → κ → α → List (κ × α)
  | [], key, v => [(key, v)]
  | (k, w) :: rest, key, v =>
    if k = key then (k, v) :: rest else (k, w) :: setA rest key v

/-- One Assignment Table entry: `(hid_path, display_name)` as appended to
`self.assignments` by `assign_player`. -/
structure Entry where
  path : String
  name : String
deriving DecidableEq

/-- The hardware map built each poll by `update_loop`:
`instance_id ↦ (hid_path, display_name)`. -/
abbrev HWMap := List (Nat × String × String)

/-- The hot-plug reconciliation filter of `update_loop`: the Python loop
that keeps an assignment when its path is in `current_connected_paths`
and drops it otherwise, building `new_assignments` in order. -/
def reconcileTable : List Entry → List String → List Entry
  | [], _ => []
  | e :: rest, connected =>
    if connected.contains e.path then e :: reconcileTable rest connected
    else reconcileTable rest connected

/-- The `dropped_names` list built by the same loop of `update_loop`:
the assignments whose path is no longer connected, in table order. -/
def droppedEntries : List Entry → List String → List Entry
  | [], _ => []
  | e :: rest, connected =>
    if connected.contains e.path then droppedEntries rest connected
    else e :: droppedEntries rest connected

theorem reconcileTable_eq_filter (l : List Entry) (connected : List String) :
    reconcileTable l connected = l.filter (fun e => connected.contains e.path) := by
  induction l with
  | nil => rfl
  | cons e rest ih =>
    simp only [reconcileTable, List.filter_cons]
    by_cases h : connected.contains e.path
    · simp [h, ih]
    · simp [h, ih]

theorem droppedEntries_eq_filter (l : List Entry) (connected : List String) :
    droppedEntries l connected = l.filter (fun e => !(connected.contains e.path)) := by
  induction l with
  | nil => rfl
  | cons e rest ih =>
    simp only [droppedEntries, List.filter_cons]
    by_cases h : connected.contains e.path
    · simp [h, ih]
    · simp [h, ih]

theorem reconcileTable_sublist (l : List Entry) (connected : List String) :
    (reconcileTable l connected).Sublist l := by
  rw [reconcileTable_eq_filter]; exact List.filter_sublist l

theorem droppedEntries_sublist (l : List Entry) (connected : List String) :
    (droppedEntries l connected).Sublist l := by
  rw [droppedEntries_eq_filter]; exact List.filter_sublist l

/-- C4: the hot-plug reconciliation step of `update_loop` removes exactly
the entries whose path disappeared from the connected-path set: the
surviving table is the in-order sublist of the previous table (no gaps,
later entries shift down to fill removed positions), an entry survives if
and only if its path is still connected, and the kept and dropped entries
partition the table. -/
theorem reconcile_removes_exactly_disconnected
    (l : List Entry) (connected : List String) :
    reconcileTable l connected = l.filter (fun e => connected.contains e.path) ∧
    (reconcileTable l connected).Sublist l ∧
    (∀ e : Entry, e ∈ reconcileTable l connected ↔
      e ∈ l ∧ connected.contains e.path = true) ∧
    (∀ e : Entry, e ∈ droppedEntries l connected ↔
      e ∈ l ∧ connected.contains e.path = false) ∧
    (reconcileTable l connected).length + (droppedEntries l connected).length
      = l.length := by
  refine ⟨reconcileTable_eq_filter l connected, reconcileTable_sublist l connected,
    ?_, ?_, ?_⟩
  · intro e
    rw [reconcileTable_eq_filter, List.mem_filter]
  · intro e
    rw [droppedEntries_eq_filter, List.mem_filter]
    simp
  · rw [reconcileTable_eq_filter, droppedEntries_eq_filter]
    exact (List.length_eq_length_filter_add
      (fun e : Entry => connected.contains e.path)).symm

/-- The module-level `COLOR_POOL` palette of 20 distinct color strings. -/
def COLOR_POOL : List String :=
  ["#00FF00", "#00FA9A", "#ADFF2F", "#7FFFD4", "#40E0D0",
   "#00FFFF", "#1E90FF", "#87CEFA", "#4169E1", "#00BFFF",
   "#FF00FF", "#DA70D6", "#9370DB", "#FF69B4", "#D8BFD8",
   "#FFFF00", "#FFD700", "#F0E68C", "#FFC200", "#FFFFFF"]

/-- The color identity state: `self.color_pool` (the remaining shuffled
palette) and `self.hid_colors` (the cache `hid_path ↦ color_hex`). -/
structure ColorState where
  pool : List String
  cache : List (String × String)
deriving DecidableEq

/-- The method `get_assigned_color`: return the cached color of
`hid_path` if present; otherwise refill the pool from `COLOR_POOL` when
it is empty, pop the front color, and cache it for `hid_path`. -/
def get_assigned_color (cs : ColorState) (hid_path : String) :
    String × ColorState :=
  match lookupA cs.cache hid_path with
  | some c => (c, cs)
  | none =>
    let pool := if cs.pool.isEmpty then COLOR_POOL else cs.pool
    let new_color := pool.headD ""
    (new_color, ⟨pool.tail, cs.cache ++ [(hid_path, new_color)]⟩)

/-- One iteration of the `refresh_grid` loop body for an active slot:
its only session-state side effect is the `get_assigned_color` call. -/
def refresh_step (cs : ColorState) (e : Entry) : ColorState :=
  (get_assigned_color cs e.path).2

/-- The color side effect of `refresh_grid`: the loop runs over the 8
slot cards and calls `get_assigned_color` for each assigned slot, in
table order. -/
def refreshColors (assignments : List Entry) (cs : ColorState) : ColorState :=
  (assignments.take 8).foldl refresh_step cs

/-- The disconnect-side color release in `update_loop`:
`color = self.hid_colors.pop(path, None); if color:
self.color_pool.append(color)`. The `if color:` truthiness test skips
appending an empty string. -/
def releaseColor (cs : ColorState) (hid_path : String) : ColorState :=
  match lookupA cs.cache hid_path with
  | none => cs
  | some c =>
    ⟨if c = "" then cs.pool else cs.pool ++ [c], eraseA cs.cache hid_path⟩

/-- One iteration of the release loop over `dropped_names`. -/
def release_step (cs : ColorState) (e : Entry) : ColorState :=
  releaseColor cs e.path

/-- The session state the claims range over: the Assignment Table
`self.assignments` plus the color identity state. -/
structure SessionState where
  assignments : List Entry
  colors : ColorState
deriving DecidableEq

/-- The method `assign_player`: resolve `instance_id` in the hardware
map; bail out on an unknown device, an already-assigned path, or a full
table; otherwise append the entry and refresh the grid (whose session
side effect is the color assignment). -/
def assign_player (hw : HWMap) (instance_id : Nat) (s : SessionState) :
    SessionState :=
  match lookupA hw instance_id with
  | none => s
  | some (target_path, display_name) =>
    if s.assignments.any (fun e => e.path == target_path) then s
    else if 8 ≤ s.assignments.length then s
    else
      let l := s.assignments ++ [⟨target_path, display_name⟩]
      ⟨l, refreshColors l s.colors⟩

/-- The `found_index` search-and-pop of `remove_player`: drop the first
entry whose path matches, keep everything else in order. -/
def removeByPath : List Entry → String → List Entry
  | [], _ => []
  | e :: rest, target =>
    if e.path == target then rest else e :: removeByPath rest target

/-- The method `remove_player`: resolve `instance_id`; if its path has a
matching entry, pop that entry and refresh the grid; otherwise leave the
table untouched. -/
def remove_player (hw : HWMap) (instance_id : Nat) (s : SessionState) :
    SessionState :=
  match lookupA hw instance_id with
  | none => s
  | some (target_path, _) =>
    if s.assignments.any (fun e => e.path == target_path) then
      let l := removeByPath s.assignments target_path
      ⟨l, refreshColors l s.colors⟩
    else s

/-- The hot-plug reconciliation step of `update_loop`: filter the table
to still-connected paths; when anything was dropped, refresh the grid
(coloring the survivors), read the first dropped entry's cached color
for the toast, and release every dropped entry's color. -/
def reconcile_poll (connected : List String) (s : SessionState) :
    SessionState :=
  let kept := reconcileTable s.assignments connected
  let dropped := droppedEntries s.assignments connected
  if kept.length = s.assignments.length then s
  else
    let cs1 := refreshColors kept s.colors
    let cs2 := if dropped.isEmpty then cs1 else dropped.foldl release_step cs1
    ⟨kept, cs2⟩

/-- The session operations of the claims: an `assign_player` call, a
`remove_player` call (each against the hardware map current at that
tick), and a reconciliation poll against a connected-path set. -/
inductive SessionOp where
  | assign (hw : HWMap) (instance_id : Nat)
  | remove (hw : HWMap) (instance_id : Nat)
  | poll (connected : List String)

/-- Apply one session operation. -/
def applyOp (s : SessionState) : SessionOp → SessionState
  | .assign hw instance_id => assign_player hw instance_id s
  | .remove hw instance_id => remove_player hw instance_id s
  | .poll connected => reconcile_poll connected s

/-- Run a sequence of session operations. -/
def runOps : SessionState → List SessionOp → SessionState
  | s, [] => s
  | s, op :: rest => runOps (applyOp s op) rest

/-- The startup state: empty table, empty cache, and a shuffled copy of
`COLOR_POOL` as the pool. -/
def initState (pool : List String) : SessionState := ⟨[], ⟨pool, []⟩⟩

/-- A session state is reachable when some operation sequence produces
it from the startup state, for some shuffle of the palette. -/
def Reachable (s : SessionState) : Prop :=
  ∃ pool ops, pool.Perm COLOR_POOL ∧ runOps (initState pool) ops = s

/-- The Assignment Table invariant claimed by the spec. -/
def TableInv (l : List Entry) : Prop :=
  (l.map Entry.path).Nodup ∧ l.length ≤ 8

theorem any_path_eq_false {l : List Entry} {t : String}
    (h : l.any (fun e => e.path == t) = false) : t ∉ l.map Entry.path := by
  induction l with
  | nil => simp
  | cons e rest ih =>
    simp only [List.any_cons, Bool.or_eq_false_iff] at h
    simp only [List.map_cons, List.mem_cons]
    rintro (rfl | hmem)
    · exact absurd h.1 (by simp)
    · exact ih h.2 hmem

theorem removeByPath_sublist (l : List Entry) (t : String) :
    (removeByPath l t).Sublist l := by
  induction l with
  | nil => simp [removeByPath]
  | cons e rest ih =>
    simp only [removeByPath]
    by_cases h : e.path == t
    · simp only [h, if_true]
      exact (List.sublist_cons_self e rest)
    · simp only [h, if_false]
      exact ih.cons₂ e

theorem tableInv_assign (hw : HWMap) (instance_id : Nat) (s : SessionState)
    (h : TableInv s.assignments) :
    TableInv (assign_player hw instance_id s).assignments := by
  unfold assign_player
  cases hl : lookupA hw instance_id with
  | none => exact h
  | some p =>
    obtain ⟨target_path, display_name⟩ := p
    by_cases hdup : s.assignments.any (fun e => e.path == target_path)
    · simpa [hdup] using h
    · by_cases hfull : 8 ≤ s.assignments.length
      · simp only [hdup, Bool.false_eq_true, if_false, hfull, if_true]
        exact h
      · simp only [hdup, Bool.false_eq_true, if_false, hfull, if_true]
        constructor
        · rw [List.map_append]
          rw [List.nodup_append]
          refine ⟨h.1, List.nodup_singleton _, ?_⟩
          intro a ha hb
          simp only [List.map_cons, List.map_nil, List.mem_singleton] at hb
          subst hb
          exact any_path_eq_false (Bool.eq_false_iff.mpr hdup) ha
        · rw [List.length_append]
          simp only [List.length_singleton]
          omega

theorem tableInv_remove (hw : HWMap) (instance_id : Nat) (s : SessionState)
    (h : TableInv s.assignments) :
    TableInv (remove_player hw instance_id s).assignments := by
  unfold remove_player
  cases hl : lookupA hw instance_id with
  | none => exact h
  | some p =>
    obtain ⟨target_path, _⟩ := p
    by_cases hfound : s.assignments.any (fun e => e.path == target_path)
    · simp only [hfound, if_true]
      have hsub := removeByPath_sublist s.assignments target_path
      exact ⟨h.1.sublist (hsub.map Entry.path), le_trans hsub.length_le h.2⟩
    · simp only [hfound, Bool.false_eq_true, if_false]
      exact h

theorem tableInv_poll (connected : List String) (s : SessionState)
    (h : TableInv s.assignments) :
    TableInv (reconcile_poll connected s).assignments := by
  unfold reconcile_poll
  by_cases hlen :
      (reconcileTable s.assignments connected).length = s.assignments.length
  · simpa [hlen] using h
  · simp only [hlen, if_false]
    have hsub := reconcileTable_sublist s.assignments connected
    exact ⟨h.1.sublist (hsub.map Entry.path), le_trans hsub.length_le h.2⟩

theorem tableInv_runOps (ops : List SessionOp) (s : SessionState)
    (h : TableInv s.assignments) : TableInv (runOps s ops).assignments := by
  induction ops generalizing s with
  | nil => exact h
  | cons op rest ih =>
    refine ih (applyOp s op) ?_
    cases op with
    | assign hw instance_id => exact tableInv_assign hw instance_id s h
    | remove hw instance_id => exact tableInv_remove hw instance_id s h
    | poll connected => exact tableInv_poll connected s h

/-- C1: in every session state reachable by assign, remove, and
reconciliation-poll operations from the empty table, the Assignment
Table has pairwise distinct hardware paths and at most 8 entries. -/
theorem assignment_table_invariant (s : SessionState) (h : Reachable s) :
    (s.assignments.map Entry.path).Nodup ∧ s.assignments.length ≤ 8 := by
  obtain ⟨pool, ops, _, hrun⟩ := h
  have := tableInv_runOps ops (initState pool) ⟨List.nodup_nil, by simp [initState]⟩
  rw [hrun] at this
  exact this

/-- A concrete hardware map used by the witnesses. -/
def hwDemo : HWMap := [(3, "usb/0001", "Pad One"), (7, "usb/0002", "Pad Two")]

/-- Witness for C1: a concrete state reached by assigning both demo
pads, removing one, and polling, satisfies the invariant. -/
theorem assignment_table_invariant_witness :
    ((runOps (initState COLOR_POOL)
        [.assign hwDemo 3, .assign hwDemo 7, .remove hwDemo 3,
         .poll ["usb/0002"]]).assignments.map Entry.path).Nodup ∧
    (runOps (initState COLOR_POOL)
        [.assign hwDemo 3, .assign hwDemo 7, .remove hwDemo 3,
         .poll ["usb/0002"]]).assignments.length ≤ 8 :=
  assignment_table_invariant _ ⟨COLOR_POOL, _, List.Perm.refl _, rfl⟩

theorem lookupA_append {κ α : Type} [DecidableEq κ]
    (xs ys : List (κ × α)) (k : κ) :
    lookupA (xs ++ ys) k =
      match lookupA xs k with
      | some v => some v
      | none => lookupA ys k := by
  induction xs with
  | nil => rfl
  | cons p rest ih =>
    obtain ⟨k', v'⟩ := p
    by_cases h : k' = k <;> simp [lookupA, h, ih]

theorem gac_cache_mono {cs : ColorState} {p : String} (q : String)
    (h : (lookupA cs.cache p).isSome = true) :
    (lookupA ((get_assigned_color cs q).2).cache p).isSome = true := by
  unfold get_assigned_color
  cases hq : lookupA cs.cache q with
  | some c => exact h
  | none =>
    simp only [lookupA_append]
    cases hp : lookupA cs.cache p with
    | some c => simp
    | none => rw [hp] at h; cases h

theorem gac_cache_self (cs : ColorState) (p : String) :
    (lookupA ((get_assigned_color cs p).2).cache p).isSome = true := by
  unfold get_assigned_color
  cases hp : lookupA cs.cache p with
  | some c => simp [hp]
  | none =>
    simp only [lookupA_append, hp]
    simp [lookupA]

theorem refresh_fold_mono (m : List Entry) (cs : ColorState) (p : String)
    (h : (lookupA cs.cache p).isSome = true) :
    (lookupA ((m.foldl refresh_step cs).cache) p).isSome = true := by
  induction m generalizing cs with
  | nil => exact h
  | cons e rest ih =>
    exact ih (refresh_step cs e) (gac_cache_mono e.path h)

theorem refresh_fold_covers (m : List Entry) (cs : ColorState) (e : Entry)
    (h : e ∈ m) :
    (lookupA ((m.foldl refresh_step cs).cache) e.path).isSome = true := by
  induction m generalizing cs with
  | nil => cases h
  | cons x rest ih =>
    rcases List.mem_cons.mp h with rfl | hmem
    · exact refresh_fold_mono rest _ e.path (gac_cache_self cs e.path)
    · exact ih (refresh_step cs x) hmem

theorem refreshColors_covers {l : List Entry} {cs : ColorState} {e : Entry}
    (hlen : l.length ≤ 8) (h : e ∈ l) :
    (lookupA ((refreshColors l cs).cache) e.path).isSome = true := by
  unfold refreshColors
  rw [List.take_of_length_le hlen]
  exact refresh_fold_covers l cs e h

theorem eraseA_lookup_ne {κ α : Type} [DecidableEq κ]
    (c : List (κ × α)) {p k : κ} (h : p ≠ k) :
    lookupA (eraseA c k) p = lookupA c p := by
  induction c with
  | nil => rfl
  | cons x rest ih =>
    obtain ⟨k', v'⟩ := x
    by_cases hk : k' = k
    · simp only [eraseA, hk, if_true, lookupA]
      rw [if_neg (fun hkp : k = p => h hkp.symm)]
    · simp only [eraseA, hk, if_false, lookupA]
      by_cases hp : k' = p
      · simp [hp]
      · simp [hp, ih]

theorem releaseColor_lookup_ne (cs : ColorState) {p k : String} (h : p ≠ k) :
    lookupA ((releaseColor cs k).cache) p = lookupA cs.cache p := by
  unfold releaseColor
  cases hk : lookupA cs.cache k with
  | none => rfl
  | some c => exact eraseA_lookup_ne cs.cache h

theorem release_fold_preserve (ds : List Entry) (cs : ColorState) (p : String)
    (hne : ∀ d ∈ ds, d.path ≠ p)
    (h : (lookupA cs.cache p).isSome = true) :
    (lookupA ((ds.foldl release_step cs).cache) p).isSome = true := by
  induction ds generalizing cs with
  | nil => exact h
  | cons d rest ih =>
    refine ih (release_step cs d) (fun x hx => hne x (List.mem_cons_of_mem d hx)) ?_
    unfold release_step
    rw [releaseColor_lookup_ne cs (fun hpd => hne d (List.mem_cons_self d rest) hpd.symm)]
    exact h

/-- The joint invariant for C9: table invariant plus every assigned path
has a cached color. -/
def SessionInv (s : SessionState) : Prop :=
  TableInv s.assignments ∧
  ∀ e ∈ s.assignments, (lookupA s.colors.cache e.path).isSome = true

theorem sessionInv_assign (hw : HWMap) (instance_id : Nat) (s : SessionState)
    (h : SessionInv s) : SessionInv (assign_player hw instance_id s) := by
  refine ⟨tableInv_assign hw instance_id s h.1, ?_⟩
  unfold assign_player
  cases hl : lookupA hw instance_id with
  | none => exact h.2
  | some p =>
    obtain ⟨target_path, display_name⟩ := p
    by_cases hdup : s.assignments.any (fun e => e.path == target_path)
    · simpa [hdup] using h.2
    · by_cases hfull : 8 ≤ s.assignments.length
      · simp only [hdup, Bool.false_eq_true, if_false, hfull, if_true]
        exact h.2
      · simp only [hdup, Bool.false_eq_true, if_false, hfull, if_true]
        intro e he
        refine refreshColors_covers ?_ he
        rw [List.length_append, List.length_singleton]
        omega

theorem sessionInv_remove (hw : HWMap) (instance_id : Nat) (s : SessionState)
    (h : SessionInv s) : SessionInv (remove_player hw instance_id s) := by
  refine ⟨tableInv_remove hw instance_id s h.1, ?_⟩
  unfold remove_player
  cases hl : lookupA hw instance_id with
  | none => exact h.2
  | some p =>
    obtain ⟨target_path, _⟩ := p
    by_cases hfound : s.assignments.any (fun e => e.path == target_path)
    · simp only [hfound, if_true]
      intro e he
      have hsub := removeByPath_sublist s.assignments target_path
      exact refreshColors_covers (le_trans hsub.length_le h.1.2) he
    · simp only [hfound, Bool.false_eq_true, if_false]
      exact h.2

theorem sessionInv_poll (connected : List String) (s : SessionState)
    (h : SessionInv s) : SessionInv (reconcile_poll connected s) := by
  refine ⟨tableInv_poll connected s h.1, ?_⟩
  unfold reconcile_poll
  by_cases hlen :
      (reconcileTable s.assignments connected).length = s.assignments.length
  · simpa [hlen] using h.2
  · simp only [hlen, if_false]
    intro e he
    have hkeptlen : (reconcileTable s.assignments connected).length ≤ 8 :=
      le_trans (reconcileTable_sublist s.assignments connected).length_le h.1.2
    have hcs1 : (lookupA ((refreshColors
        (reconcileTable s.assignments connected) s.colors).cache)
        e.path).isSome = true :=
      refreshColors_covers hkeptlen he
    have hconn : connected.contains e.path = true := by
      have := (reconcile_removes_exactly_disconnected
        s.assignments connected).2.2.1 e
      exact (this.mp he).2
    by_cases hdrop : (droppedEntries s.assignments connected).isEmpty
    · simpa [hdrop] using hcs1
    · simp only [hdrop, Bool.false_eq_true, if_false]
      refine release_fold_preserve _ _ _ ?_ hcs1
      intro d hd hcontra
      have hdne : connected.contains d.path = false := by
        have := (reconcile_removes_exactly_disconnected
          s.assignments connected).2.2.2.1 d
        exact (this.mp hd).2
      rw [hcontra, hconn] at hdne
      cases hdne

theorem sessionInv_runOps (ops : List SessionOp) (s : SessionState)
    (h : SessionInv s) : SessionInv (runOps s ops) := by
  induction ops generalizing s with
  | nil => exact h
  | cons op rest ih =>
    refine ih (applyOp s op) ?_
    cases op with
    | assign hw instance_id => exact sessionInv_assign hw instance_id s h
    | remove hw instance_id => exact sessionInv_remove hw instance_id s h
    | poll connected => exact sessionInv_poll connected s h

theorem mem_of_head?_eq_some {α : Type} {l : List α} {a : α}
    (h : l.head? = some a) : a ∈ l := by
  cases l with
  | nil => cases h
  | cons x xs =>
    simp only [List.head?_cons, Option.some.injEq] at h
    exact h ▸ List.mem_cons_self x xs

/-- C9: in every reachable session state, every assigned path has an
entry in the color cache (because an assignment immediately refreshes
the grid, which assigns colors); consequently the unguarded
`self.hid_colors[dropped_names[0][0]]` lookup performed for the
disconnect toast — after the table was filtered and the grid refreshed,
before the dropped colors are released — always succeeds. -/
theorem assigned_paths_always_colored (s : SessionState) (h : Reachable s) :
    (∀ e ∈ s.assignments, (lookupA s.colors.cache e.path).isSome = true) ∧
    ∀ (connected : List String) (d : Entry),
      (droppedEntries s.assignments connected).head? = some d →
      (lookupA ((refreshColors (reconcileTable s.assignments connected)
          s.colors).cache) d.path).isSome = true := by
  obtain ⟨pool, ops, _, hrun⟩ := h
  have hinv := sessionInv_runOps ops (initState pool)
    ⟨⟨List.nodup_nil, by simp [initState]⟩, by simp [initState]⟩
  rw [hrun] at hinv
  refine ⟨hinv.2, ?_⟩
  intro connected d hd
  have hdmem : d ∈ s.assignments :=
    (droppedEntries_sublist s.assignments connected).mem (mem_of_head?_eq_some hd)
  have hcov := hinv.2 d hdmem
  unfold refreshColors
  exact refresh_fold_mono _ _ _ hcov

/-- Witness for C9: after assigning the first demo pad, its path is
cached, and when a poll with nothing connected drops it, the toast-time
lookup succeeds. -/
theorem assigned_paths_always_colored_witness :
    ((lookupA (runOps (initState COLOR_POOL)
        [.assign hwDemo 3]).colors.cache "usb/0001").isSome = true) ∧
    ((lookupA ((refreshColors
        (reconcileTable (runOps (initState COLOR_POOL)
          [.assign hwDemo 3]).assignments [])
        (runOps (initState COLOR_POOL) [.assign hwDemo 3]).colors).cache)
        "usb/0001").isSome = true) := by
  have h := assigned_paths_always_colored
    (runOps (initState COLOR_POOL) [.assign hwDemo 3])
    ⟨COLOR_POOL, _, List.Perm.refl _, rfl⟩
  exact ⟨h.1 ⟨"usb/0001", "Pad One"⟩ (by decide),
         h.2 [] ⟨"usb/0001", "Pad One"⟩ (by decide)⟩

/-- The 20 distinct demo paths used to exhaust the palette. -/
def cePaths : List String :=
  ["P01", "P02", "P03", "P04", "P05", "P06", "P07", "P08", "P09", "P10",
   "P11", "P12", "P13", "P14", "P15", "P16", "P17", "P18", "P19", "P20"]

/-- A one-pad hardware map for a given path. -/
def ceHW (p : String) : HWMap := [(0, p, "pad")]

/-- Assign each demo pad and remove it again (explicit removal keeps its
cached color), then assign a 21st pad after the pool has run dry. -/
def ceOps : List SessionOp :=
  (cePaths.map (fun p => [SessionOp.assign (ceHW p) 0,
                          SessionOp.remove (ceHW p) 0])).flatten
    ++ [SessionOp.assign (ceHW "P21") 0]

/-- Counterexample to C8 as stated: a reachable session state in which
two distinct cached paths hold the same color. After 20 distinct paths
have consumed the palette, `get_assigned_color` refills the pool from
the full `COLOR_POOL` without removing the colors still cached, so the
21st path receives a color already held by an earlier path. -/
theorem color_uniqueness_counterexample :
    ∃ s : SessionState, Reachable s ∧
      ∃ p₁ p₂ c, p₁ ≠ p₂ ∧
        lookupA s.colors.cache p₁ = some c ∧
        lookupA s.colors.cache p₂ = some c :=
  ⟨runOps (initState COLOR_POOL) ceOps,
   ⟨COLOR_POOL, ceOps, List.Perm.refl _, rfl⟩,
   "P01", "P21", "#00FF00", by decide, by decide, by decide⟩

/-- Color-cache states reachable by `get_assigned_color` and the
disconnect release while the palette is never exhausted at a fresh
assignment (so the refill branch of `get_assigned_color` never runs). -/
inductive ColorReachNR : ColorState → Prop
  | init (pool : List String) (h : pool.Perm COLOR_POOL) :
      ColorReachNR ⟨pool, []⟩
  | color (cs : ColorState) (hid_path : String) (h : ColorReachNR cs)
      (hnr : lookupA cs.cache hid_path = none → cs.pool ≠ []) :
      ColorReachNR (get_assigned_color cs hid_path).2
  | release (cs : ColorState) (hid_path : String) (h : ColorReachNR cs) :
      ColorReachNR (releaseColor cs hid_path)

theorem lookupA_eq_some_split {κ α : Type} [DecidableEq κ]
    {c : List (κ × α)} {k : κ} {v : α} (h : lookupA c k = some v) :
    ∃ pre post, c = pre ++ (k, v) :: post ∧ eraseA c k = pre ++ post := by
  induction c with
  | nil => cases h
  | cons x rest ih =>
    obtain ⟨k', v'⟩ := x
    by_cases hk : k' = k
    · subst hk
      simp only [lookupA, if_true, Option.some.injEq] at h
      subst h
      exact ⟨[], rest, rfl, by simp [eraseA]⟩
    · simp only [lookupA, hk, if_false] at h
      obtain ⟨pre, post, hc, he⟩ := ih h
      exact ⟨(k', v') :: pre, post, by simp [hc], by simp [eraseA, hk, he]⟩

/-- The no-refill palette invariant: the colors remaining in the pool
and the colors currently cached are pairwise distinct overall. -/
theorem colorInv_of_reachNR {cs : ColorState} (h : ColorReachNR cs) :
    (cs.pool ++ cs.cache.map Prod.snd).Nodup := by
  induction h with
  | init pool hperm =>
    simp only [List.map_nil, List.append_nil]
    have hC : COLOR_POOL.Nodup := by decide
    exact hperm.symm.nodup hC
  | color cs hid_path h hnr ih =>
    unfold get_assigned_color
    cases hp : lookupA cs.cache hid_path with
    | some c => exact ih
    | none =>
      have hne : cs.pool ≠ [] := hnr hp
      obtain ⟨a, t, hat⟩ : ∃ a t, cs.pool = a :: t := by
        cases hcp : cs.pool with
        | nil => exact absurd hcp hne
        | cons a t => exact ⟨a, t, rfl⟩
      rw [hat] at ih ⊢
      simp only [List.isEmpty_cons, Bool.false_eq_true, if_false,
        List.headD_cons, List.tail_cons, List.map_append, List.map_cons,
        List.map_nil]
      have ih' : (a :: (t ++ cs.cache.map Prod.snd)).Nodup := by
        simpa using ih
      have h1 : List.Perm ((t ++ cs.cache.map Prod.snd) ++ [a])
          (a :: (t ++ cs.cache.map Prod.snd)) :=
        List.perm_append_singleton a _
      have h2 := h1.symm.nodup ih'
      simpa [List.append_assoc] using h2
  | release cs hid_path h ih =>
    unfold releaseColor
    cases hp : lookupA cs.cache hid_path with
    | none => exact ih
    | some c =>
      obtain ⟨pre, post, hc, he⟩ := lookupA_eq_some_split hp
      rw [he]
      rw [hc] at ih
      simp only [List.map_append, List.map_cons] at ih
      by_cases hcempty : c = ""
      · simp only [hcempty, if_true]
        refine List.Nodup.sublist ?_ ih
        simp only [List.map_append]
        refine List.Sublist.append_left ?_ cs.pool
        refine List.Sublist.append_left ?_ (pre.map Prod.snd)
        exact List.sublist_cons_self c (post.map Prod.snd)
      · simp only [hcempty, if_false]
        have h2 : List.Perm (pre.map Prod.snd ++ c :: post.map Prod.snd)
            (c :: (pre.map Prod.snd ++ post.map Prod.snd)) :=
          List.perm_middle
        have h3 := (h2.append_left cs.pool).nodup ih
        simpa [List.map_append, List.append_assoc] using h3

theorem lookupA_mem_snd {κ α : Type} [DecidableEq κ]
    {c : List (κ × α)} {k : κ} {v : α} (h : lookupA c k = some v) :
    v ∈ c.map Prod.snd := by
  induction c with
  | nil => cases h
  | cons x rest ih =>
    obtain ⟨k', v'⟩ := x
    by_cases hk : k' = k
    · simp only [lookupA, hk, if_true, Option.some.injEq] at h
      simp [h]
    · simp only [lookupA, hk, if_false] at h
      simp [ih h]

theorem cache_inj_of_nodup {c : List (String × String)}
    (hn : (c.map Prod.snd).Nodup) {p₁ p₂ v : String}
    (h₁ : lookupA c p₁ = some v) (h₂ : lookupA c p₂ = some v) : p₁ = p₂ := by
  induction c with
  | nil => cases h₁
  | cons x rest ih =>
    obtain ⟨k, w⟩ := x
    simp only [List.map_cons, List.nodup_cons] at hn
    by_cases hk1 : k = p₁ <;> by_cases hk2 : k = p₂
    · rw [← hk1, ← hk2]
    · simp only [lookupA, hk1, if_true] at h₁
      simp only [lookupA, hk2, if_false] at h₂
      have := lookupA_mem_snd h₂
      rw [Option.some.injEq] at h₁
      rw [← h₁] at this
      exact absurd this hn.1
    · simp only [lookupA, hk1, if_false] at h₁
      simp only [lookupA, hk2, if_true] at h₂
      have := lookupA_mem_snd h₁
      rw [Option.some.injEq] at h₂
      rw [← h₂] at this
      exact absurd this hn.1
    · simp only [lookupA, hk1, if_false] at h₁
      simp only [lookupA, hk2, if_false] at h₂
      exact ih hn.2 h₁ h₂

/-- C8 amended: as long as the palette is never exhausted at a fresh
color assignment (the refill branch of `get_assigned_color` never
runs), the color cache maps distinct hardware paths to distinct colors
in every reachable color-cache state. The counterexample shows the
original unconditional claim fails once the pool is refilled. -/
theorem color_uniqueness_no_refill (cs : ColorState) (h : ColorReachNR cs) :
    ∀ p₁ p₂ c, lookupA cs.cache p₁ = some c → lookupA cs.cache p₂ = some c →
      p₁ = p₂ := by
  intro p₁ p₂ c h₁ h₂
  exact cache_inj_of_nodup (colorInv_of_reachNR h).of_append_right h₁ h₂

/-- Witness for the amended C8: one fresh assignment from the full
palette is a no-refill-reachable state with a cached color, and the
uniqueness theorem applies to it. -/
theorem color_uniqueness_no_refill_witness :
    lookupA ((get_assigned_color ⟨COLOR_POOL, []⟩ "P01").2).cache "P01"
      = some "#00FF00" ∧ "P01" = "P01" :=
  ⟨by decide,
   color_uniqueness_no_refill _
     (ColorReachNR.color ⟨COLOR_POOL, []⟩ "P01"
       (ColorReachNR.init COLOR_POOL (List.Perm.refl _))
       (fun _ => by decide))
     "P01" "P01" "#00FF00" (by decide) (by decide)⟩

theorem removeByPath_eq_filter {l : List Entry} {t : String}
    (h : (l.map Entry.path).Nodup) :
    removeByPath l t = l.filter (fun e => !(e.path == t)) := by
  induction l with
  | nil => rfl
  | cons e rest ih =>
    simp only [List.map_cons, List.nodup_cons] at h
    simp only [removeByPath, List.filter_cons]
    by_cases he : e.path == t
    · simp only [he, if_true, Bool.not_true, Bool.false_eq_true, if_false]
      have ht : t ∉ rest.map Entry.path := by
        have h1 := h.1
        rwa [eq_of_beq he] at h1
      symm
      refine List.filter_eq_self.mpr ?_
      intro x hx
      have hxt : x.path ≠ t := fun hxt => ht (List.mem_map.mpr ⟨x, hx, hxt⟩)
      simp [hxt]
    · simp only [he, Bool.false_eq_true, if_false, Bool.not_false,
        Bool.not_eq_eq_eq_not]
      rw [ih h.2]
      simp [he]

/-- C5: for a table with pairwise-distinct paths, `remove_player`
resolves `instance_id` through the hardware map and removes exactly the
entry whose path equals the resolved path, wherever it sits, keeping the
rest in order (array compaction); it leaves the table unchanged when the
instance id is unknown or when the resolved path has no entry. -/
theorem remove_player_removes_by_path (hw : HWMap) (instance_id : Nat)
    (s : SessionState) (h : (s.assignments.map Entry.path).Nodup) :
    (lookupA hw instance_id = none →
        (remove_player hw instance_id s).assignments = s.assignments) ∧
    ∀ target_path display_name,
      lookupA hw instance_id = some (target_path, display_name) →
      (remove_player hw instance_id s).assignments
          = s.assignments.filter (fun e => !(e.path == target_path)) ∧
      ((remove_player hw instance_id s).assignments).Sublist s.assignments ∧
      ((∀ e ∈ s.assignments, e.path ≠ target_path) →
        (remove_player hw instance_id s).assignments = s.assignments) := by
  constructor
  · intro hnone
    unfold remove_player
    rw [hnone]
  · intro target_path display_name hsome
    unfold remove_player
    rw [hsome]
    by_cases hfound : s.assignments.any (fun e => e.path == target_path)
    · simp only [hfound, if_true]
      refine ⟨removeByPath_eq_filter h, ?_, ?_⟩
      · exact removeByPath_sublist s.assignments target_path
      · intro hno
        rw [removeByPath_eq_filter h]
        refine List.filter_eq_self.mpr ?_
        intro x hx
        simpa using hno x hx
    · simp only [hfound, Bool.false_eq_true, if_false]
      have hnotmem : target_path ∉ s.assignments.map Entry.path :=
        any_path_eq_false (Bool.eq_false_iff.mpr hfound)
      refine ⟨?_, ?_, ?_⟩
      · symm
        refine List.filter_eq_self.mpr ?_
        intro x hx
        have hxt : x.path ≠ target_path :=
          fun hxt => hnotmem (List.mem_map.mpr ⟨x, hx, hxt⟩)
        simp [hxt]
      · exact List.Sublist.refl _
      · intro _
        trivial

/-- Witness for C5: removing the first demo pad from a two-pad table
removes exactly its entry and leaves the second. -/
theorem remove_player_removes_by_path_witness :
    (remove_player hwDemo 3
        ⟨[⟨"usb/0001", "Pad One"⟩, ⟨"usb/0002", "Pad Two"⟩],
         ⟨COLOR_POOL, []⟩⟩).assignments
      = [⟨"usb/0002", "Pad Two"⟩] := by
  have h := remove_player_removes_by_path hwDemo 3
    ⟨[⟨"usb/0001", "Pad One"⟩, ⟨"usb/0002", "Pad Two"⟩], ⟨COLOR_POOL, []⟩⟩
    (by decide)
  have h2 := (h.2 "usb/0001" "Pad One" (by decide)).1
  rw [h2]
  decide

/-- Hexadecimal digit test for the characters of a GUID string. -/
def isHexC (c : Char) : Bool :=
  c.isDigit || ('a' ≤ c && c ≤ 'f') || ('A' ≤ c && c ≤ 'F')

/-- The Python slice `raw_hex[a:b]`. -/
def sliceL (l : List Char) (a b : Nat) : List Char := (l.drop a).take (b - a)

/-- The method `ryujinx_guid_fix` on the characters of `raw_hex`.
`legacy` is the `ryujinx_version == "1.1.1403"` test: the legacy branch
endian-swaps the first 4 bytes, the other branch masks them to
`000000` plus the bus-id byte; both swap the next two 2-byte groups and
pass the remainder through. Input shorter than 32 characters is
returned as-is. -/
def ryujinx_guid_fix (legacy : Bool) (raw_hex : List Char) : List Char :=
  if raw_hex.length < 32 then raw_hex
  else
    let part1 :=
      if legacy then
        sliceL raw_hex 6 8 ++ sliceL raw_hex 4 6 ++ sliceL raw_hex 2 4 ++
          sliceL raw_hex 0 2
      else
        '0' :: '0' :: '0' :: '0' :: '0' :: '0' :: sliceL raw_hex 0 2
    let part2 := sliceL raw_hex 10 12 ++ sliceL raw_hex 8 10
    let part3 := sliceL raw_hex 14 16 ++ sliceL raw_hex 12 14
    let part4_a := sliceL raw_hex 16 20
    let part4_b := raw_hex.drop 20
    part1 ++ '-' :: (part2 ++ '-' :: (part3 ++ '-' :: (part4_a ++ '-' :: part4_b)))

/-- A hex group of a fixed length. -/
def HexGroup (g : List Char) (n : Nat) : Prop :=
  g.length = n ∧ ∀ c ∈ g, isHexC c = true

/-- The `XXXXXXXX-XXXX-XXXX-XXXX-XXXXXXXXXXXX` shape: five
dash-separated hex groups of lengths 8, 4, 4, 4, 12. -/
def GuidShape (s : List Char) : Prop :=
  ∃ g1 g2 g3 g4 g5 : List Char,
    HexGroup g1 8 ∧ HexGroup g2 4 ∧ HexGroup g3 4 ∧ HexGroup g4 4 ∧
    HexGroup g5 12 ∧
    s = g1 ++ '-' :: (g2 ++ '-' :: (g3 ++ '-' :: (g4 ++ '-' :: g5)))

theorem mem_sliceL {raw : List Char} {a b : Nat} {c : Char}
    (h : c ∈ sliceL raw a b) : c ∈ raw :=
  ((List.take_sublist _ _).trans (List.drop_sublist _ _)).subset h

/-- C2: on a 32-hex-character input, `ryujinx_guid_fix` produces five
dash-separated hex groups of lengths 8-4-4-4-12 under either version
variant; on any input shorter than 32 characters it returns the input
unchanged. -/
theorem guid_fix_shape (legacy : Bool) (raw : List Char) :
    (raw.length = 32 → (∀ c ∈ raw, isHexC c = true) →
      GuidShape (ryujinx_guid_fix legacy raw)) ∧
    (raw.length < 32 → ryujinx_guid_fix legacy raw = raw) := by
  constructor
  · intro hlen hhex
    have hnlt : ¬raw.length < 32 := by omega
    have hslice : ∀ a b : Nat, ∀ c ∈ sliceL raw a b, isHexC c = true :=
      fun a b c hc => hhex c (mem_sliceL hc)
    have hslicelen : ∀ a b : Nat, b ≤ 32 → (sliceL raw a b).length = b - a := by
      intro a b hb
      simp only [sliceL, List.length_take, List.length_drop, hlen]
      omega
    cases legacy with
    | false =>
      refine ⟨'0' :: '0' :: '0' :: '0' :: '0' :: '0' :: sliceL raw 0 2,
        sliceL raw 10 12 ++ sliceL raw 8 10,
        sliceL raw 14 16 ++ sliceL raw 12 14,
        sliceL raw 16 20, raw.drop 20, ?_, ?_, ?_, ?_, ?_, ?_⟩
      · refine ⟨?_, ?_⟩
        · simp [hslicelen 0 2 (by omega)]
        · intro c hc
          simp only [List.mem_cons] at hc
          rcases hc with rfl | rfl | rfl | rfl | rfl | rfl | hc
          · decide
          · decide
          · decide
          · decide
          · decide
          · decide
          · exact hslice 0 2 c hc
      · refine ⟨?_, ?_⟩
        · simp [List.length_append, hslicelen 10 12 (by omega),
            hslicelen 8 10 (by omega)]
        · intro c hc
          rcases List.mem_append.mp hc with hc | hc
          · exact hslice 10 12 c hc
          · exact hslice 8 10 c hc
      · refine ⟨?_, ?_⟩
        · simp [List.length_append, hslicelen 14 16 (by omega),
            hslicelen 12 14 (by omega)]
        · intro c hc
          rcases List.mem_append.mp hc with hc | hc
          · exact hslice 14 16 c hc
          · exact hslice 12 14 c hc
      · exact ⟨hslicelen 16 20 (by omega), hslice 16 20⟩
      · refine ⟨?_, ?_⟩
        · simp [List.length_drop, hlen]
        · intro c hc
          exact hhex c ((List.drop_sublist _ _).subset hc)
      · simp [ryujinx_guid_fix, hnlt]
    | true =>
      refine ⟨sliceL raw 6 8 ++ sliceL raw 4 6 ++ sliceL raw 2 4 ++
          sliceL raw 0 2,
        sliceL raw 10 12 ++ sliceL raw 8 10,
        sliceL raw 14 16 ++ sliceL raw 12 14,
        sliceL raw 16 20, raw.drop 20, ?_, ?_, ?_, ?_, ?_, ?_⟩
      · refine ⟨?_, ?_⟩
        · simp [List.length_append, hslicelen 6 8 (by omega),
            hslicelen 4 6 (by omega), hslicelen 2 4 (by omega),
            hslicelen 0 2 (by omega)]
        · intro c hc
          rcases List.mem_append.mp hc with hc | hc
          · rcases List.mem_append.mp hc with hc | hc
            · rcases List.mem_append.mp hc with hc | hc
              · exact hslice 6 8 c hc
              · exact hslice 4 6 c hc
            · exact hslice 2 4 c hc
          · exact hslice 0 2 c hc
      · refine ⟨?_, ?_⟩
        · simp [List.length_append, hslicelen 10 12 (by omega),
            hslicelen 8 10 (by omega)]
        · intro c hc
          rcases List.mem_append.mp hc with hc | hc
          · exact hslice 10 12 c hc
          · exact hslice 8 10 c hc
      · refine ⟨?_, ?_⟩
        · simp [List.length_append, hslicelen 14 16 (by omega),
            hslicelen 12 14 (by omega)]
        · intro c hc
          rcases List.mem_append.mp hc with hc | hc
          · exact hslice 14 16 c hc
          · exact hslice 12 14 c hc
      · exact ⟨hslicelen 16 20 (by omega), hslice 16 20⟩
      · refine ⟨?_, ?_⟩
        · simp [List.length_drop, hlen]
        · intro c hc
          exact hhex c ((List.drop_sublist _ _).subset hc)
      · simp [ryujinx_guid_fix, hnlt]
  · intro hshort
    unfold ryujinx_guid_fix
    rw [if_pos hshort]

/-- A concrete 32-hex-character GUID for the witness. -/
def guidDemo : List Char := "030000005e0400008e02000014010000".toList

/-- Witness for C2: the demo GUID produces the dash shape under the
legacy variant, and a 3-character input is returned unchanged. -/
theorem guid_fix_shape_witness :
    GuidShape (ryujinx_guid_fix true guidDemo) ∧
    ryujinx_guid_fix true "abc".toList = "abc".toList :=
  ⟨(guid_fix_shape true guidDemo).1 (by decide) (by decide),
   (guid_fix_shape true "abc".toList).2 (by decide)⟩

/-- String form of `ryujinx_guid_fix`. -/
def guidFixS (legacy : Bool) (raw : String) : String :=
  ⟨ryujinx_guid_fix legacy raw.data⟩

/-- One gamepad as seen by the fresh scan in `save_config`: its raw
GUID string, HID path, and display name, in scan order. -/
structure ScanDevice where
  guid : String
  path : String
  name : String
deriving DecidableEq

/-- One element of `final_hw_list` built by `save_config`. -/
structure HWEntry where
  path : String
  ryu_id : String
  name : String
deriving DecidableEq

/-- The `save_config` scan loop: for each gamepad, look its reformatted
GUID up in `guid_counters` (default 0), emit
`{idx}-{reformatted_guid}`, and bump the counter. -/
def exportScanGo (legacy : Bool) :
    List ScanDevice → List (String × Nat) → List HWEntry
  | [], _ => []
  | d :: rest, counters =>
    { path := d.path,
      ryu_id := toString ((lookupA counters (guidFixS legacy d.guid)).getD 0)
          ++ "-" ++ guidFixS legacy d.guid,
      name := d.name } ::
      exportScanGo legacy rest
        (setA counters (guidFixS legacy d.guid)
          ((lookupA counters (guidFixS legacy d.guid)).getD 0 + 1))

/-- The full fresh scan of `save_config`, starting from empty counters. -/
def exportScan (legacy : Bool) (devices : List ScanDevice) : List HWEntry :=
  exportScanGo legacy devices []

theorem setA_lookup {κ : Type} [DecidableEq κ]
    (c : List (κ × Nat)) (k k' : κ) (v : Nat) :
    lookupA (setA c k v) k' = if k = k' then some v else lookupA c k' := by
  induction c with
  | nil =>
    by_cases h : k = k' <;> simp [setA, lookupA, h]
  | cons x rest ih =>
    obtain ⟨k0, w⟩ := x
    by_cases h0 : k0 = k
    · simp only [setA, h0, if_true, lookupA]
      by_cases h1 : k = k'
      · simp [h1]
      · simp [h1]
    · simp only [setA, h0, if_false, lookupA]
      by_cases h1 : k0 = k'
      · have h2 : ¬(k = k') := fun hkk => h0 (hkk.symm ▸ h1.symm ▸ rfl)
        rw [if_pos h1, if_neg h2, if_pos h1]
      · rw [if_neg h1, ih, if_neg h1]

theorem exportScanGo_ryu_id (legacy : Bool) (devs : List ScanDevice) :
    ∀ (counters : List (String × Nat)) (processed : List ScanDevice),
    (∀ b, (lookupA counters b).getD 0 =
        processed.countP (fun e => guidFixS legacy e.guid == b)) →
    ∀ (i : Nat) (d : ScanDevice), devs[i]? = some d →
      ((exportScanGo legacy devs counters)[i]?).map HWEntry.ryu_id =
        some (toString ((processed ++ devs.take i).countP
            (fun e => guidFixS legacy e.guid == guidFixS legacy d.guid))
          ++ "-" ++ guidFixS legacy d.guid) := by
  induction devs with
  | nil =>
    intro counters processed hinv i d hd
    simp at hd
  | cons d0 rest ih =>
    intro counters processed hinv i d hd
    cases i with
    | zero =>
      simp only [List.getElem?_cons_zero, Option.some.injEq] at hd
      subst hd
      simp only [exportScanGo, List.getElem?_cons_zero, Option.map_some,
        List.take_zero, List.append_nil]
      rw [hinv (guidFixS legacy d0.guid)]
      rfl
    | succ n =>
      simp only [List.getElem?_cons_succ] at hd
      simp only [exportScanGo, List.getElem?_cons_succ]
      have hinv2 : ∀ b,
          (lookupA (setA counters (guidFixS legacy d0.guid)
            ((lookupA counters (guidFixS legacy d0.guid)).getD 0 + 1)) b).getD 0
          = (processed ++ [d0]).countP
              (fun e => guidFixS legacy e.guid == b) := by
        intro b
        rw [setA_lookup]
        rw [List.countP_append]
        by_cases hb : guidFixS legacy d0.guid = b
        · rw [if_pos hb, hinv (guidFixS legacy d0.guid)]
          simp only [Option.getD_some]
          have hone : ([d0].countP fun e => guidFixS legacy e.guid == b) = 1 := by
            simp [List.countP_cons, hb]
          rw [hone, hb]
        · rw [if_neg hb, hinv b]
          have hzero : ([d0].countP fun e => guidFixS legacy e.guid == b) = 0 := by
            simp [List.countP_cons, hb]
          rw [hzero]
          omega
      have := ih (setA counters (guidFixS legacy d0.guid)
          ((lookupA counters (guidFixS legacy d0.guid)).getD 0 + 1))
        (processed ++ [d0]) hinv2 n d hd
      rw [this]
      simp [List.take_succ_cons, List.append_assoc]

/-- C3 amended: duplicate indices in the fresh export scan are
per unique reformatted GUID (`guid_counters` is keyed on the output of
`ryujinx_guid_fix`, not on the raw GUID): the `i`-th scanned gamepad's
exported identifier is `{n}-{reformatted_guid}` where `n` counts the
earlier scanned gamepads with the same reformatted GUID. For devices
with identical raw GUIDs the reformatted GUIDs coincide, so three
devices with the same raw GUID get indices 0, 1, 2 in scan order. -/
theorem export_dup_index_by_reformatted_guid (legacy : Bool)
    (devices : List ScanDevice) (i : Nat) (d : ScanDevice)
    (hd : devices[i]? = some d) :
    ((exportScan legacy devices)[i]?).map HWEntry.ryu_id =
      some (toString ((devices.take i).countP
          (fun e => guidFixS legacy e.guid == guidFixS legacy d.guid))
        ++ "-" ++ guidFixS legacy d.guid) := by
  have := exportScanGo_ryu_id legacy devices [] []
    (fun b => by simp [lookupA]) i d hd
  simpa [exportScan] using this

/-- Raw GUID of the duplicated demo model. -/
def rawA : String := "03000000000000000000000000000000"

/-- A raw GUID distinct from `rawA` but with the same masked reformatting
(the bus-id variant discards characters 2-7 of the raw GUID). -/
def rawB : String := "03ffffff000000000000000000000000"

/-- A fresh scan with devices bearing raw GUIDs A, B, A. -/
def demoCE : List ScanDevice :=
  [⟨rawA, "hid/1", "padA"⟩, ⟨rawB, "hid/2", "padB"⟩, ⟨rawA, "hid/3", "padA"⟩]

/-- Counterexample to C3 as stated: under the masked (non-legacy)
variant, `rawA ≠ rawB` but both reformat to the same value, so they
share a counter. The devices bearing raw GUID `rawA` are scanned first
and third, and the third device's exported identifier is
`2-<reformat(rawA)>`, not the `1-<reformat(rawA)>` that per-raw-GUID
zero-based indexing would dictate. -/
theorem export_dup_index_counterexample :
    demoCE.map ScanDevice.guid = [rawA, rawB, rawA] ∧
    ¬rawA = rawB ∧
    ((exportScan false demoCE)[2]?).map HWEntry.ryu_id
      = some ("2-" ++ guidFixS false rawA) ∧
    ¬((exportScan false demoCE)[2]?).map HWEntry.ryu_id
      = some ("1-" ++ guidFixS false rawA) := by
  refine ⟨rfl, by decide, by decide, by decide⟩

/-- A fresh scan of three devices with identical raw GUID. -/
def demoCE3 : List ScanDevice :=
  [⟨rawA, "hid/1", "pad"⟩, ⟨rawA, "hid/2", "pad"⟩, ⟨rawA, "hid/3", "pad"⟩]

/-- Witness for the amended C3: the third of three identically-GUIDed
devices is exported as `2-<reformat(rawA)>`. -/
theorem export_dup_index_by_reformatted_guid_witness :
    ((exportScan false demoCE3)[2]?).map HWEntry.ryu_id
      = some ("2-" ++ guidFixS false rawA) :=
  (export_dup_index_by_reformatted_guid false demoCE3 2
    ⟨rawA, "hid/3", "pad"⟩ (by decide)).trans (by decide)

/-- The fields of one `input_config` record that `save_config` computes
from the session (the remaining fields are template passthrough). -/
structure CfgEntry where
  ryu_id : String
  name : String
  player_index : String
deriving DecidableEq

/-- The `save_config` export loop:
`for i, (assigned_path, _) in enumerate(self.assignments)`, find the
first fresh-scan entry with the same path; on a match emit a record
with `player_index = "Player{i+1}"`, otherwise silently skip the
assignment. `i` advances over the full table either way. -/
def save_config_go (hw : List HWEntry) : Nat → List Entry → List CfgEntry
  | _, [] => []
  | i, a :: rest =>
    match hw.find? (fun x => x.path == a.path) with
    | some m =>
      ⟨m.ryu_id, m.name, "Player" ++ toString (i + 1)⟩ ::
        save_config_go hw (i + 1) rest
    | none => save_config_go hw (i + 1) rest

/-- The exported `input_config` records for a table and a fresh scan. -/
def save_config_entries (assignments : List Entry) (hw : List HWEntry) :
    List CfgEntry :=
  save_config_go hw 0 assignments

theorem save_config_go_eq_enumFrom (hw : List HWEntry) (l : List Entry)
    (n : Nat) :
    save_config_go hw n l = (List.enumFrom n l).filterMap
      (fun p => (hw.find? (fun x => x.path == p.2.path)).map
        (fun m => ⟨m.ryu_id, m.name, "Player" ++ toString (p.1 + 1)⟩)) := by
  induction l generalizing n with
  | nil => rfl
  | cons a rest ih =>
    simp only [save_config_go, List.enumFrom_cons, List.filterMap_cons]
    cases hf : hw.find? (fun x => x.path == a.path) with
    | none => simp [ih]
    | some m => simp [ih]

/-- A demo table of two assignments. -/
def demoTable : List Entry := [⟨"pathX", "Pad X"⟩, ⟨"pathY", "Pad Y"⟩]

/-- A demo fresh scan in which only the second assigned path appears. -/
def demoScanHW : List HWEntry := [⟨"pathY", "0-00000003-0000", "Pad Y"⟩]

/-- C10: the exported player index is computed from the entry's position
in the full Assignment Table (`Player{i+1}` for the `i`-th table
entry), not from its position in the exported list: the export equals
the table enumerated from 0 and filtered by hardware match, each
surviving record keeping its table-based index. Consequently, when an
assigned path is missing from the fresh scan, the exported indices can
be non-contiguous: for a two-entry table whose first path is unmatched,
the export is a single record labelled `Player2` and no record is
labelled `Player1`. -/
theorem export_player_index_from_table_position :
    (∀ (l : List Entry) (hw : List HWEntry),
      save_config_entries l hw = (l.enum.filterMap
        (fun p => (hw.find? (fun x => x.path == p.2.path)).map
          (fun m => ⟨m.ryu_id, m.name, "Player" ++ toString (p.1 + 1)⟩)))) ∧
    save_config_entries demoTable demoScanHW
      = [⟨"0-00000003-0000", "Pad Y", "Player2"⟩] ∧
    ∀ e ∈ save_config_entries demoTable demoScanHW,
      ¬e.player_index = "Player1" := by
  refine ⟨?_, by decide, by decide⟩
  intro l hw
  exact save_config_go_eq_enumFrom hw l 0

/-- The alert kinds of `self.alert_mode` (Python uses the strings
`"LAUNCH"`, `"EXIT"`, `"KILL_CONFIRM"`; `None` means no alert). -/
inductive AlertKind where
  | LAUNCH
  | EXIT
  | KILL_CONFIRM
deriving DecidableEq

/-- One open controller handle, reduced to the three button-held states
the kill-combo scan queries through `SDL_GameControllerGetButton`. -/
structure Pad where
  back : Bool
  leftShoulder : Bool
  rightShoulder : Bool
deriving DecidableEq

/-- The buttons the event loop dispatches on. -/
inductive SDLButton where
  | A
  | B
  | START
  | BACK
  | Y
  | other
deriving DecidableEq

/-- One SDL event drained by the event loop. -/
inductive SDLEvent where
  | buttonDown (button : SDLButton) (which : Nat)
  | quit

/-- The launcher state the mode-machine claims range over: the session,
the open controller handles (`self.controllers`), the alert mode, the
launched-process handle (`self.ryujinx_process` as a liveness flag),
and the `returning_to_launcher` flag. -/
structure LauncherState where
  session : SessionState
  controllers : List Pad
  alert_mode : Option AlertKind
  processActive : Bool
  returning : Bool
deriving DecidableEq

/-- The method `force_launch`: `save_config` (which closes and clears
all controller handles), hide the window, clear the restart flag, and
spawn the Ryujinx process. -/
def force_launch (s : LauncherState) : LauncherState :=
  { s with processActive := true, controllers := [], returning := false }

/-- The method `check_launch`: with an empty table show the `LAUNCH`
alert, otherwise launch immediately. -/
def check_launch (s : LauncherState) : LauncherState :=
  if s.session.assignments.length = 0 then { s with alert_mode := some .LAUNCH }
  else force_launch s

/-- The method `close_alert`. -/
def close_alert (s : LauncherState) : LauncherState :=
  { s with alert_mode := none }

/-- The method `kill_and_restart`: set the restart flag, kill the
process, clear the table, refresh the grid, and close the alert. -/
def kill_and_restart (s : LauncherState) : LauncherState :=
  { s with returning := true, processActive := false,
           session := ⟨[], refreshColors [] s.session.colors⟩,
           alert_mode := none }

/-- The `SDL_CONTROLLERBUTTONDOWN` dispatch of `update_loop`: alert-mode
buttons first (`KILL_CONFIRM` has three options, the other alerts two);
in normal mode input is ignored while the game runs, otherwise `A`
assigns, `B` removes, `START` launches, `BACK` opens the exit
confirmation. `kill_and_quit` and `root.destroy` terminate the launcher
process itself and are modelled as fixed points. -/
def handle_event (hw : HWMap) (s : LauncherState) : SDLEvent → LauncherState
  | .quit => s
  | .buttonDown button which =>
    match s.alert_mode with
    | some .KILL_CONFIRM =>
      if button = .A then kill_and_restart s
      else if button = .Y then s
      else if button = .B then close_alert s
      else s
    | some .LAUNCH =>
      if button = .A then force_launch s
      else if button = .B then close_alert s
      else s
    | some .EXIT =>
      if button = .A then s
      else if button = .B then close_alert s
      else s
    | none =>
      if s.processActive then s
      else if button = .A then
        { s with session := assign_player hw which s.session }
      else if button = .B then
        { s with session := remove_player hw which s.session }
      else if button = .START then check_launch s
      else if button = .BACK then { s with alert_mode := some .EXIT }
      else s

/-- The kill-combo loop of `update_loop`: walk every open controller
handle and report true as soon as one holds Back, LeftShoulder and
RightShoulder together (the Python loop breaks on the first match). -/
def kill_combo_scan : List Pad → Bool
  | [] => false
  | c :: rest =>
    if c.back && c.leftShoulder && c.rightShoulder then true
    else kill_combo_scan rest

/-- The remainder of one `update_loop` tick after the process-monitoring
block: the hot-plug reconciliation poll against the scanned hardware
map, then the drain of all pending SDL events. -/
def tick_rest (s : LauncherState) (hw : HWMap) (events : List SDLEvent) :
    LauncherState :=
  events.foldl (handle_event hw)
    { s with session := reconcile_poll (hw.map (fun h => h.2.1)) s.session }

/-- One `update_loop` tick. While the launched process is tracked and no
alert is showing: a detected child exit either resets for relaunch (the
`returning_to_launcher` path) or ends the launcher (modelled as a fixed
point); otherwise a positive kill-combo scan shows the `KILL_CONFIRM`
alert and returns before reconciliation and event handling. In every
other case the tick proceeds to reconciliation and the event drain. -/
def update_tick (s : LauncherState) (childExited : Bool) (hw : HWMap)
    (events : List SDLEvent) : LauncherState :=
  if s.processActive = true ∧ s.alert_mode = none then
    if childExited then
      if s.returning then
        tick_rest
          { s with
              session := SessionState.mk [] s.session.colors,
              processActive := false,
              returning := false }
          hw events
      else s
    else if kill_combo_scan s.controllers then
      { s with alert_mode := some .KILL_CONFIRM }
    else tick_rest s hw events
  else tick_rest s hw events

/-- C6: a launch request (`START`) in mode `NONE` with no game running:
with an empty Assignment Table the mode becomes `CONFIRM_LAUNCH` and
nothing is launched (the state changes only in `alert_mode`); with a
non-empty table the launch executes immediately and the mode stays
`NONE`. -/
theorem launch_request_mode_transition (hw : HWMap) (s : LauncherState)
    (which : Nat) (hmode : s.alert_mode = none)
    (hproc : s.processActive = false) :
    (s.session.assignments = [] →
      handle_event hw s (.buttonDown .START which)
        = { s with alert_mode := some .LAUNCH }) ∧
    (s.session.assignments ≠ [] →
      (handle_event hw s (.buttonDown .START which)).processActive = true ∧
      (handle_event hw s (.buttonDown .START which)).alert_mode = none) := by
  constructor
  · intro hempty
    simp [handle_event, hmode, hproc, check_launch, hempty]
  · intro hne
    have hlen : ¬s.session.assignments.length = 0 := by
      simpa [List.length_eq_zero] using hne
    simp [handle_event, hmode, hproc, check_launch, hlen, force_launch]

/-- A demo launcher state with an empty table and one with an assigned
pad, both in mode `NONE` with no game running. -/
def launcherEmpty : LauncherState :=
  ⟨⟨[], ⟨COLOR_POOL, []⟩⟩, [], none, false, false⟩

/-- Demo launcher state with one assignment. -/
def launcherOne : LauncherState :=
  ⟨⟨[⟨"usb/0001", "Pad One"⟩], ⟨COLOR_POOL, []⟩⟩, [], none, false, false⟩

/-- Witness for C6: pressing `START` on the empty-table state opens the
launch confirmation, and on the one-pad state launches with the mode
still `NONE`. -/
theorem launch_request_mode_transition_witness :
    handle_event hwDemo launcherEmpty (.buttonDown .START 3)
      = { launcherEmpty with alert_mode := some .LAUNCH } ∧
    (handle_event hwDemo launcherOne
      (.buttonDown .START 3)).processActive = true ∧
    (handle_event hwDemo launcherOne (.buttonDown .START 3)).alert_mode
      = none :=
  ⟨(launch_request_mode_transition hwDemo launcherEmpty 3 rfl rfl).1 rfl,
   (launch_request_mode_transition hwDemo launcherOne 3 rfl rfl).2
     (by decide)⟩

/-- C7: the kill-combo scan over the open controller handles (assigned
or not) reports true exactly when some single handle holds the
back/select, left-shoulder and right-shoulder buttons simultaneously;
it short-circuits on the first matching handle; and while the launched
process is active with no alert showing, a positive scan turns the mode
into `CONFIRM_KILL` within that same tick, before reconciliation or
event handling. -/
theorem kill_combo_detection (s : LauncherState) (hw : HWMap)
    (events : List SDLEvent) :
    (kill_combo_scan s.controllers = true ↔
      ∃ p ∈ s.controllers,
        p.back = true ∧ p.leftShoulder = true ∧ p.rightShoulder = true) ∧
    (∀ (p : Pad) (rest : List Pad),
      (p.back && p.leftShoulder && p.rightShoulder) = true →
      kill_combo_scan (p :: rest) = true) ∧
    (s.processActive = true → s.alert_mode = none →
      kill_combo_scan s.controllers = true →
      update_tick s false hw events
        = { s with alert_mode := some .KILL_CONFIRM }) := by
  refine ⟨?_, ?_, ?_⟩
  · induction s.controllers with
    | nil => simp [kill_combo_scan]
    | cons c rest ih =>
      by_cases hc : (c.back && c.leftShoulder && c.rightShoulder) = true
      · simp only [kill_combo_scan, hc, if_true, true_iff]
        refine ⟨c, List.mem_cons_self c rest, ?_⟩
        simp only [Bool.and_eq_true] at hc
        exact ⟨hc.1.1, hc.1.2, hc.2⟩
      · simp only [kill_combo_scan, hc, Bool.false_eq_true, if_false]
        rw [ih]
        constructor
        · rintro ⟨p, hp, h1, h2, h3⟩
          exact ⟨p, List.mem_cons_of_mem c hp, h1, h2, h3⟩
        · rintro ⟨p, hp, h1, h2, h3⟩
          rcases List.mem_cons.mp hp with rfl | hp
          · exact absurd (by simp [h1, h2, h3]) hc
          · exact ⟨p, hp, h1, h2, h3⟩
  · intro p rest hp
    simp [kill_combo_scan, hp]
  · intro hproc hmode hcombo
    simp [update_tick, hproc, hmode, hcombo]

/-- A demo pad holding the kill combo. -/
def comboPad : Pad := ⟨true, true, true⟩

/-- Demo launcher state: game running, no alert, one spare pad holding
the combo. -/
def launcherRunning : LauncherState :=
  ⟨⟨[], ⟨COLOR_POOL, []⟩⟩, [⟨false, false, false⟩, comboPad], none, true, false⟩

/-- Witness for C7: with the combo held on the second (unassigned) pad
while the game runs, the tick moves the mode to `KILL_CONFIRM`. -/
theorem kill_combo_detection_witness :
    update_tick launcherRunning false hwDemo []
      = { launcherRunning with alert_mode := some .KILL_CONFIRM } :=
  (kill_combo_detection launcherRunning hwDemo []).2.2 rfl rfl (by decide)

end RyujinxLauncher
